import Mathlib

set_option maxRecDepth 100000
set_option maxHeartbeats 1000000

/-!
Verification of the configuration-patching, verification, polling, download
and removal logic of the OpenSearch installer scripts
(`open_search_install.py`, `open_search_remove.py`).

File contents are modelled as `List Char`; a file is split on `'\n'` exactly
as Python `str.split('\n')` does, joined back with `'\n'.join`, and Python
`str.strip()` is modelled by `pyStrip`.
-/

namespace OpenSearchInstall

/-- Convert a string literal to the `List Char` representation used for file
content and lines. -/
def str (s : String) : List Char := s.toList

/-- Python whitespace characters recognised by `str.strip()` (ASCII range). -/
def isPyWs (c : Char) : Bool :=
  c = ' ' || c = '\t' || c = '\n' || c = '\r' || c = '\x0b' || c = '\x0c'

/-- Python `s.startswith(p)` on char lists: `startsWithL p s` is true when
`p` is an initial segment of `s`. -/
def startsWithL : List Char → List Char → Bool
  | [], _ => true
  | _ :: _, [] => false
  | p :: ps, c :: cs => p == c && startsWithL ps cs

/-- Python `p in s` (substring containment) on char lists. -/
def containsSub (p : List Char) : List Char → Bool
  | [] => p.isEmpty
  | c :: rest => startsWithL p (c :: rest) || containsSub p rest

/-- Python `str.lstrip()`: drop leading whitespace characters. -/
def lstripWs : List Char → List Char
  | [] => []
  | c :: rest => if isPyWs c then lstripWs rest else c :: rest

/-- Python `str.rstrip()`: drop trailing whitespace characters. -/
def rstripWs : List Char → List Char
  | [] => []
  | c :: rest =>
      match rstripWs rest with
      | [] => if isPyWs c then [] else [c]
      | r :: rs => c :: r :: rs

/-- Python `str.strip()`: drop whitespace at both ends. -/
def pyStrip (s : List Char) : List Char := lstripWs (rstripWs s)

/-- Python `content.split('\n')`: split into lines at every newline; the
result is always non-empty and `''.split` of the empty string is `[""]`. -/
def splitNl : List Char → List (List Char)
  | [] => [[]]
  | c :: rest =>
      let r := splitNl rest
      if c = '\n' then [] :: r
      else (c :: r.headD []) :: r.tail

/-- Python `'\n'.join(lines)`. -/
def joinNl : List (List Char) → List Char
  | [] => []
  | [l] => l
  | l :: ls => l ++ '\n' :: joinNl ls

/-- Python `f.readlines()`: split into lines, each keeping its trailing
newline; a final unterminated line is returned without a newline; the empty
file yields no lines. -/
def readLines : List Char → List (List Char)
  | [] => []
  | c :: rest =>
      if c = '\n' then ['\n'] :: readLines rest
      else
        match readLines rest with
        | [] => [[c]]
        | l :: ls => (c :: l) :: ls

/-- Python `f.writelines(ls)` output content: concatenation of the lines. -/
def concatAll : List (List Char) → List Char
  | [] => []
  | l :: ls => l ++ concatAll ls

/-! ## Settings Patcher (`OpenSearchInstaller.opensearch_config_update`) -/

/-- The three managed setting keys with their required values, in the order
of `required_settings` in `verify_config`. -/
def required_settings : List (List Char × List Char) :=
  [(str "network.host", str "0.0.0.0"),
   (str "discovery.type", str "single-node"),
   (str "plugins.security.disabled", str "false")]

/-- The `key:` patterns checked by the patcher filter:
`['network.host:', 'discovery.type:', 'plugins.security.disabled:']`. -/
def key_colon_patterns : List (List Char) :=
  [str "network.host:", str "discovery.type:", str "plugins.security.disabled:"]

/-- The bare key names checked against comment lines:
`['network.host', 'discovery.type', 'plugins.security.disabled']`. -/
def bare_key_patterns : List (List Char) :=
  [str "network.host", str "discovery.type", str "plugins.security.disabled"]

/-- Condition of the first filter branch:
`any(setting in line for setting in [...key:...])`. -/
def aMatch (line : List Char) : Bool :=
  key_colon_patterns.any (fun p => containsSub p line)

/-- Condition of the second filter branch:
`line.strip().startswith('#') and any(text in line for text in [...bare keys...])`. -/
def bMatch (line : List Char) : Bool :=
  startsWithL (str "#") (pyStrip line) &&
    bare_key_patterns.any (fun p => containsSub p line)

/-- The filter loop of `opensearch_config_update`, with its `skip_next`
flag: a line matching a `key:` pattern is dropped together with the line
after it; a comment line containing a bare key name is dropped; every other
line is kept. -/
def configFilterAux (skip : Bool) : List (List Char) → List (List Char)
  | [] => []
  | l :: rest =>
      if skip then configFilterAux false rest
      else if aMatch l then configFilterAux true rest
      else if bMatch l then configFilterAux false rest
      else l :: configFilterAux false rest

/-- The `new_config` block appended by `opensearch_config_update`
(the Python triple-quoted literal, leading and trailing newline included). -/
def new_config : List Char := str
  "\n# Bind to the correct network interface. Use 0.0.0.0\n# to include all available interfaces or specify an IP address\n# assigned to a specific interface.\nnetwork.host: 0.0.0.0\n\n# Unless you have already configured a cluster, you should set\n# discovery.type to single-node, or the bootstrap checks will\n# fail when you try to start the service.\ndiscovery.type: single-node\n\n# If you previously disabled the Security plugin in opensearch.yml,\n# be sure to re-enable it. Otherwise you can skip this setting.\nplugins.security.disabled: false\n"

/-- The characters of `new_config` after its leading newline. -/
def block_chars : List Char := str
  "# Bind to the correct network interface. Use 0.0.0.0\n# to include all available interfaces or specify an IP address\n# assigned to a specific interface.\nnetwork.host: 0.0.0.0\n\n# Unless you have already configured a cluster, you should set\n# discovery.type to single-node, or the bootstrap checks will\n# fail when you try to start the service.\ndiscovery.type: single-node\n\n# If you previously disabled the Security plugin in opensearch.yml,\n# be sure to re-enable it. Otherwise you can skip this setting.\nplugins.security.disabled: false\n"

/-- The lines of the appended block (split of `block_chars`, trailing empty
line from the final newline included). -/
def block_lines : List (List Char) := splitNl block_chars

/-- The `opensearch_config_update` content transformation: split the
existing config on newlines, filter with `configFilterAux`, join, strip,
and append `new_config`. -/
def opensearch_config_update (existing_config : List Char) : List Char :=
  pyStrip (joinNl (configFilterAux false (splitNl existing_config))) ++ new_config

/-! ## Settings Verifier (`OpenSearchInstaller.verify_config`) -/

/-- One iteration of the `verify_config` parsing loop: strip the line; skip
it when empty or a comment; otherwise split on the first `': '` and record
the value when the key is one of the required settings (later occurrences
overwrite earlier ones). -/
def splitColonSpace : List Char → Option (List Char × List Char)
  | [] => none
  | ':' :: ' ' :: rest => some ([], rest)
  | c :: rest => (splitColonSpace rest).map (fun p => (c :: p.1, p.2))

/-- Update the found-settings map with one line, as in `verify_config`. -/
def found_map_step (m : List Char → Option (List Char)) (line : List Char) :
    List Char → Option (List Char) :=
  let l := pyStrip line
  if l.isEmpty then m
  else if startsWithL (str "#") l then m
  else
    match splitColonSpace l with
    | none => m
    | some (k, v) =>
        if required_settings.any (fun kv => kv.1 == k) then
          fun k2 => if k2 = k then some v else m k2
        else m

/-- The found-settings map built by `verify_config` from a file content. -/
def found_settings (content : List Char) : List Char → Option (List Char) :=
  (splitNl content).foldl found_map_step (fun _ => none)

/-- Required keys reported missing by `verify_config`. -/
def verify_missing (content : List Char) : List (List Char) :=
  (required_settings.filter (fun kv => (found_settings content kv.1).isNone)).map
    (fun kv => kv.1)

/-- Required keys reported with an incorrect value by `verify_config`. -/
def verify_mismatched (content : List Char) : List (List Char × List Char) :=
  required_settings.filter (fun kv =>
    match found_settings content kv.1 with
    | some v => !(v == kv.2)
    | none => false)

/-- The `all_correct` result of `verify_config` on a file content. -/
def verify_config (content : List Char) : Bool :=
  required_settings.all (fun kv => found_settings content kv.1 == some kv.2)

/-- The `verify_config` function with its surrounding `try/except`: opening a missing or
unreadable file raises, the `except` clause catches every exception and
returns `False`; a readable file is parsed without raising. -/
def verify_config_io (file : Option (List Char)) : Except (List Char) Bool :=
  match (match file with
         | none => Except.error (str "ConfigNotFound")
         | some c => Except.ok (verify_config c) : Except (List Char) Bool) with
  | Except.ok b => Except.ok b
  | Except.error _ => Except.ok false

/-! ## Heap Option Patcher (`OpenSearchInstaller.set_jvm_heap`) -/

/-- Keep a JVM options line iff its stripped form starts with neither
`-Xms` nor `-Xmx`. -/
def jvm_keep_line (l : List Char) : Bool :=
  !(startsWithL (str "-Xms") (pyStrip l)) && !(startsWithL (str "-Xmx") (pyStrip l))

/-- The `new_lines` accumulation loop of `set_jvm_heap`. -/
def jvm_filter_loop : List (List Char) → List (List Char)
  | [] => []
  | l :: rest =>
      if !(startsWithL (str "-Xms") (pyStrip l)) &&
          !(startsWithL (str "-Xmx") (pyStrip l)) then
        l :: jvm_filter_loop rest
      else jvm_filter_loop rest

/-- The `new_lines` list written by `set_jvm_heap`: filtered `readlines`
output followed by the two heap settings lines. -/
def set_jvm_new_lines (content : List Char) : List (List Char) :=
  jvm_filter_loop (readLines content) ++ [str "-Xms8g\n", str "-Xmx8g\n"]

/-- The `set_jvm_heap` content transformation (`readlines`, filter out
`-Xms`/`-Xmx` lines, append the two heap lines, `writelines`). -/
def set_jvm_heap (content : List Char) : List Char :=
  concatAll (set_jvm_new_lines content)

/-! ## Readiness pollers -/

/-- Outcome of a polling loop: the check became true after `checks`
attempts; or the loop exhausted its attempts and raised; or the loop
exhausted its attempts and fell through without raising. -/
inductive PollOutcome where
  | satisfied (checks : Nat)
  | timedOutRaise (checks : Nat)
  | timedOutContinue (checks : Nat)
deriving DecidableEq, Repr

/-- The `max_attempts` bound of `verify_installation`. -/
def max_attempts : Nat := 90

/-- The `verify_installation` loop: on attempt `k+1` the environment
provides the three booleans (package installed in yum, config file exists,
JVM file exists); the loop returns as soon as all three hold and raises
`Exception("Installation verification timed out ...")` after
`max_attempts` failed attempts. -/
def verify_installation_aux (env : Nat → Bool × Bool × Bool) :
    Nat → Nat → PollOutcome
  | 0, k => PollOutcome.timedOutRaise k
  | n + 1, k =>
      let e := env (k + 1)
      if e.1 && e.2.1 && e.2.2 then PollOutcome.satisfied (k + 1)
      else verify_installation_aux env n (k + 1)

/-- The `verify_installation` loop with its fixed attempt budget of 90. -/
def verify_installation (env : Nat → Bool × Bool × Bool) : PollOutcome :=
  verify_installation_aux env max_attempts 0

/-- The process-monitor loop of `opensearch_install`: polls `is_running`
every 5 seconds while less than `max_wait = 300` seconds have elapsed
(hence at most 60 polls), breaks when the process tree has finished, and
when the time bound is reached simply exits the loop and falls through to
`process.wait()` without raising. -/
def install_monitor_aux (isRunning : Nat → Bool) : Nat → Nat → PollOutcome
  | 0, k => PollOutcome.timedOutContinue k
  | n + 1, k =>
      if isRunning (k + 1) = false then PollOutcome.satisfied (k + 1)
      else install_monitor_aux isRunning n (k + 1)

/-- The `opensearch_install` monitor loop with its `max_wait / sleep`
budget of `300 / 5 = 60` polls. -/
def install_monitor (isRunning : Nat → Bool) : PollOutcome :=
  install_monitor_aux isRunning 60 0

/-! ## Download cache (`OpenSearchInstaller.download_opensearch`) -/

/-- The `download_opensearch` function on the state of the target RPM file. The file is
`none` when absent, `some content` when present. The result is the final
file state, whether a download (curl write) was performed and whether the
function returned normally (`false` models the raised download exception).
When the file exists with size greater than zero the function returns its
path at once; otherwise curl writes `fetched` and an empty result raises. -/
def download_opensearch (existing : Option (List Char)) (fetched : List Char) :
    Option (List Char) × Bool × Bool :=
  if (match existing with
      | some content => decide (content.length > 0)
      | none => false) then
    (existing, false, true)
  else if fetched.length = 0 then (some fetched, true, false)
  else (some fetched, true, true)

/-! ## Removal sequencer (`OpenSearchRemover.run_removal`) -/

/-- The eight removal steps, in the order `run_removal` performs them:
dashboard stop/disable/remove/rmdir, then the same four for OpenSearch. -/
inductive RStep where
  | stopDash | disableDash | removeDash | rmdirDash
  | stopOS | disableOS | removeOS | rmdirOS
deriving DecidableEq, Repr

/-- Environment of one removal run: whether the process is root, and for
each component whether the service is active, whether each systemctl / yum /
rmtree call succeeds, and whether the config directory exists. -/
structure RWorld where
  root : Bool
  dashActive : Bool
  dashStopOk : Bool
  dashDisableOk : Bool
  dashRemoveOk : Bool
  dashDirExists : Bool
  dashRmdirOk : Bool
  osActive : Bool
  osStopOk : Bool
  osDisableOk : Bool
  osRemoveOk : Bool
  osDirExists : Bool
  osRmdirOk : Bool

/-- Step `stop_service`: a not-running service is skipped; a failing stop of a
running service calls `sys.exit(1)` (returns `false`). -/
def stop_service (active ok : Bool) : Bool :=
  if active then ok else true

/-- Step `disable_service`: a failing disable only prints an error message and
returns — it never exits. -/
def disable_service (_ok : Bool) : Bool := true

/-- Step `remove_package`: a failing `yum remove` calls `sys.exit(1)`. -/
def remove_package (ok : Bool) : Bool := ok

/-- Step `remove_config_directory`: a missing directory is skipped; a failing
`shutil.rmtree` calls `sys.exit(1)`. -/
def remove_config_directory (dirEx ok : Bool) : Bool :=
  if dirEx then ok else true

/-- Sequencer `run_removal`: `check_root` first (exit when not root), then the four
dashboard steps, then the four OpenSearch steps; a step returning `false`
(`sys.exit`) stops the whole run. The result is the list of steps that were
executed and whether the run completed normally. -/
def run_removal (w : RWorld) : List RStep × Bool :=
  if w.root = false then ([], false)
  else if stop_service w.dashActive w.dashStopOk = false then
    ([RStep.stopDash], false)
  else if disable_service w.dashDisableOk = false then
    ([RStep.stopDash, RStep.disableDash], false)
  else if remove_package w.dashRemoveOk = false then
    ([RStep.stopDash, RStep.disableDash, RStep.removeDash], false)
  else if remove_config_directory w.dashDirExists w.dashRmdirOk = false then
    ([RStep.stopDash, RStep.disableDash, RStep.removeDash, RStep.rmdirDash], false)
  else if stop_service w.osActive w.osStopOk = false then
    ([RStep.stopDash, RStep.disableDash, RStep.removeDash, RStep.rmdirDash,
      RStep.stopOS], false)
  else if disable_service w.osDisableOk = false then
    ([RStep.stopDash, RStep.disableDash, RStep.removeDash, RStep.rmdirDash,
      RStep.stopOS, RStep.disableOS], false)
  else if remove_package w.osRemoveOk = false then
    ([RStep.stopDash, RStep.disableDash, RStep.removeDash, RStep.rmdirDash,
      RStep.stopOS, RStep.disableOS, RStep.removeOS], false)
  else if remove_config_directory w.osDirExists w.osRmdirOk = false then
    ([RStep.stopDash, RStep.disableDash, RStep.removeDash, RStep.rmdirDash,
      RStep.stopOS, RStep.disableOS, RStep.removeOS, RStep.rmdirOS], false)
  else
    ([RStep.stopDash, RStep.disableDash, RStep.removeDash, RStep.rmdirDash,
      RStep.stopOS, RStep.disableOS, RStep.removeOS, RStep.rmdirOS], true)

/-- Whether a removal step fails fatally in environment `w`: stop fails
fatally only on a running service, package removal fails fatally on a yum
error, directory removal fails fatally only on an existing directory, and a
disable failure is never fatal. -/
def step_fatal (w : RWorld) : RStep → Bool
  | RStep.stopDash => w.dashActive && !w.dashStopOk
  | RStep.disableDash => false
  | RStep.removeDash => !w.dashRemoveOk
  | RStep.rmdirDash => w.dashDirExists && !w.dashRmdirOk
  | RStep.stopOS => w.osActive && !w.osStopOk
  | RStep.disableOS => false
  | RStep.removeOS => !w.osRemoveOk
  | RStep.rmdirOS => w.osDirExists && !w.osRmdirOk

/-- The fixed order of the eight removal steps. -/
def removal_order : List RStep :=
  [RStep.stopDash, RStep.disableDash, RStep.removeDash, RStep.rmdirDash,
   RStep.stopOS, RStep.disableOS, RStep.removeOS, RStep.rmdirOS]

/-- Declarative removal trace: execute the steps in order and cut the run
at the first fatally failing step (that step included). -/
def spec_run (w : RWorld) : List RStep → List RStep × Bool
  | [] => ([], true)
  | s :: rest =>
      if step_fatal w s then ([s], false)
      else
        let r := spec_run w rest
        (s :: r.1, r.2)

/-- Declarative model of the whole removal: nothing executes without root;
otherwise the ordered steps run until the first fatal failure. -/
def spec_removal (w : RWorld) : List RStep × Bool :=
  if w.root = false then ([], false) else spec_run w removal_order

/-! ## Derived definitions used by the claim statements -/

/-- The seven explanatory comment lines of the inserted block that do not
contain any setting key name and therefore survive a second filter pass. -/
def leftover_lines : List (List Char) :=
  [str "# Bind to the correct network interface. Use 0.0.0.0",
   str "# to include all available interfaces or specify an IP address",
   str "# assigned to a specific interface.",
   str "# Unless you have already configured a cluster, you should set",
   str "# fail when you try to start the service.",
   str "# If you previously disabled the Security plugin in opensearch.yml,",
   str "# be sure to re-enable it. Otherwise you can skip this setting."]

/-- The joined text of `leftover_lines`. -/
def leftover_chars : List Char := joinNl leftover_lines

/-- Filter condition (a) exactly as the claim words it: the trimmed content
of the line begins with `<key>:` for some spec key. -/
def aMatchSpec (line : List Char) : Bool :=
  key_colon_patterns.any (fun p => startsWithL p (pyStrip line))

/-- The filter as claim C4 describes it: drop a line whose trimmed content
begins with a `key:` pattern together with the following line, drop comment
lines containing a bare key name, keep everything else in order. -/
def specFilterClaim : List (List Char) → List (List Char)
  | [] => []
  | [l] => if aMatchSpec l then [] else if bMatch l then [] else [l]
  | l :: l2 :: rest =>
      if aMatchSpec l then specFilterClaim rest
      else if bMatch l then specFilterClaim (l2 :: rest)
      else l :: specFilterClaim (l2 :: rest)

/-- The amended filter: identical to the claimed one except that condition
(a) is substring containment of `<key>:` anywhere in the raw line, checked
before the comment condition. -/
def specFilterAmended : List (List Char) → List (List Char)
  | [] => []
  | [l] => if aMatch l then [] else if bMatch l then [] else [l]
  | l :: l2 :: rest =>
      if aMatch l then specFilterAmended rest
      else if bMatch l then specFilterAmended (l2 :: rest)
      else l :: specFilterAmended (l2 :: rest)

/-! ## Lemmas about line splitting and joining -/

theorem splitNl_ne_nil (s : List Char) : splitNl s ≠ [] := by
  cases s with
  | nil => simp [splitNl]
  | cons c rest =>
      simp only [splitNl]
      by_cases h : c = '\n' <;> simp [h]

theorem join_split (s : List Char) : joinNl (splitNl s) = s := by
  induction s with
  | nil => rfl
  | cons c rest ih =>
      simp only [splitNl]
      rcases hr : splitNl rest with _ | ⟨l, ls⟩
      · exact absurd hr (splitNl_ne_nil rest)
      · by_cases h : c = '\n'
        · subst h
          simp only [if_pos rfl]
          rw [hr] at ih
          cases ls with
          | nil => simpa [joinNl] using ih
          | cons l2 ls2 => simpa [joinNl] using ih
        · simp only [if_neg h, List.headD, List.tail]
          rw [hr] at ih
          cases ls with
          | nil => simpa [joinNl] using ih
          | cons l2 ls2 =>
              simp only [joinNl] at ih ⊢
              simp [← ih]

theorem splitNl_append (x y : List Char) :
    splitNl (x ++ '\n' :: y) = splitNl x ++ splitNl y := by
  induction x with
  | nil => simp [splitNl]
  | cons c rest ih =>
      rcases hr : splitNl rest with _ | ⟨l, ls⟩
      · exact absurd hr (splitNl_ne_nil rest)
      by_cases h : c = '\n'
      · subst h
        simp [splitNl, ih]
      · show splitNl (c :: (rest ++ '\n' :: y)) = splitNl (c :: rest) ++ splitNl y
        simp only [splitNl, if_neg h]
        rw [ih, hr]
        simp

theorem joinNl_append (xs ys : List (List Char)) (hys : ys ≠ []) :
    joinNl (xs ++ ys) = joinNl xs ++ (if xs = [] then [] else ['\n']) ++ joinNl ys := by
  induction xs with
  | nil => simp [joinNl]
  | cons l xs ih =>
      cases xs with
      | nil =>
          cases ys with
          | nil => exact absurd rfl hys
          | cons y ys2 => simp [joinNl]
      | cons l2 xs2 =>
          rw [List.cons_append]
          show l ++ '\n' :: joinNl (l2 :: xs2 ++ ys) = _
          rw [ih]
          simp [joinNl]

/-! ## Lemmas about substring containment and stripping -/

theorem startsWithL_append_right (p s t : List Char) (h : startsWithL p s = true) :
    startsWithL p (s ++ t) = true := by
  induction p generalizing s with
  | nil => rfl
  | cons a ps ih =>
      cases s with
      | nil => simp [startsWithL] at h
      | cons c cs =>
          simp only [startsWithL, Bool.and_eq_true] at h
          simp only [List.cons_append, startsWithL, Bool.and_eq_true]
          exact ⟨h.1, ih cs h.2⟩

theorem startsWithL_of_append (p q s : List Char)
    (h : startsWithL (p ++ q) s = true) : startsWithL p s = true := by
  induction p generalizing s with
  | nil => rfl
  | cons a ps ih =>
      cases s with
      | nil => simp [startsWithL] at h
      | cons c cs =>
          simp only [List.cons_append, startsWithL, Bool.and_eq_true] at h
          simp only [startsWithL, Bool.and_eq_true]
          exact ⟨h.1, ih cs h.2⟩

theorem containsSub_nil_pat (s : List Char) : containsSub [] s = true := by
  induction s with
  | nil => rfl
  | cons c rest ih => simp [containsSub, startsWithL]

theorem containsSub_append_right (p s t : List Char)
    (h : containsSub p s = true) : containsSub p (s ++ t) = true := by
  induction s with
  | nil =>
      simp only [containsSub, List.isEmpty_iff] at h
      subst h
      simpa using containsSub_nil_pat t
  | cons c rest ih =>
      simp only [containsSub, Bool.or_eq_true] at h
      simp only [List.cons_append, containsSub, Bool.or_eq_true]
      rcases h with h | h
      · exact Or.inl (by simpa using startsWithL_append_right p (c :: rest) t h)
      · exact Or.inr (ih h)

theorem containsSub_append_left (p s t : List Char)
    (h : containsSub p t = true) : containsSub p (s ++ t) = true := by
  induction s with
  | nil => simpa using h
  | cons c rest ih =>
      simp only [List.cons_append, containsSub, Bool.or_eq_true]
      exact Or.inr ih

theorem containsSub_sandwich (p a s b : List Char)
    (h : containsSub p s = true) : containsSub p (a ++ s ++ b) = true := by
  rw [List.append_assoc]
  exact containsSub_append_left p a (s ++ b) (containsSub_append_right p s b h)

theorem containsSub_of_pattern_append (p q s : List Char)
    (h : containsSub (p ++ q) s = true) : containsSub p s = true := by
  induction s with
  | nil =>
      simp only [containsSub, List.isEmpty_iff, List.append_eq_nil] at h ⊢
      exact h.1
  | cons c rest ih =>
      simp only [containsSub, Bool.or_eq_true] at h ⊢
      rcases h with h | h
      · exact Or.inl (startsWithL_of_append p q (c :: rest) h)
      · exact Or.inr (ih h)

theorem rstripWs_all_ws (s : List Char) (h : ∀ c ∈ s, isPyWs c = true) :
    rstripWs s = [] := by
  induction s with
  | nil => rfl
  | cons c rest ih =>
      have hr := ih (fun x hx => h x (List.mem_cons_of_mem c hx))
      have hc := h c (List.mem_cons_self c rest)
      simp [rstripWs, hr, hc]

theorem rstripWs_append_ws (x b : List Char) (h : ∀ c ∈ b, isPyWs c = true) :
    rstripWs (x ++ b) = rstripWs x := by
  induction x with
  | nil => simpa using rstripWs_all_ws b h
  | cons c rest ih =>
      show rstripWs (c :: (rest ++ b)) = rstripWs (c :: rest)
      simp only [rstripWs, ih]

theorem rstripWs_append_of_ne_nil (a x : List Char) (h : rstripWs x ≠ []) :
    rstripWs (a ++ x) = a ++ rstripWs x := by
  induction a with
  | nil => simp
  | cons c rest ih =>
      show rstripWs (c :: (rest ++ x)) = c :: (rest ++ rstripWs x)
      simp only [rstripWs, ih]
      rcases hx : rstripWs x with _ | ⟨r, rs⟩
      · exact absurd hx h
      · cases rest with
        | nil => simp
        | cons d ds => simp

theorem lstripWs_append_ws (a x : List Char) (h : ∀ c ∈ a, isPyWs c = true) :
    lstripWs (a ++ x) = lstripWs x := by
  induction a with
  | nil => simp
  | cons c rest ih =>
      have hc := h c (List.mem_cons_self c rest)
      show lstripWs (c :: (rest ++ x)) = lstripWs x
      simp only [lstripWs, hc, if_true]
      exact ih (fun y hy => h y (List.mem_cons_of_mem c hy))

theorem rstripWs_eq_nil_all_ws :
    ∀ s : List Char, rstripWs s = [] → ∀ c ∈ s, isPyWs c = true := by
  intro s
  induction s with
  | nil => simp
  | cons c rest ih =>
      intro h x hx
      simp only [rstripWs] at h
      rcases hr : rstripWs rest with _ | ⟨r, rs⟩
      · rw [hr] at h
        by_cases hc : isPyWs c = true
        · rcases List.mem_cons.mp hx with h1 | h1
          · subst h1; exact hc
          · exact ih hr x h1
        · rw [if_neg hc] at h
          simp at h
      · rw [hr] at h
        simp at h

theorem pyStrip_sandwich (a s b : List Char)
    (ha : ∀ c ∈ a, isPyWs c = true) (hb : ∀ c ∈ b, isPyWs c = true) :
    pyStrip (a ++ s ++ b) = pyStrip s := by
  unfold pyStrip
  have h1 : rstripWs (a ++ s ++ b) = rstripWs (a ++ s) :=
    rstripWs_append_ws (a ++ s) b hb
  rw [h1]
  rcases hs : rstripWs s with _ | ⟨r, rs⟩
  · have hsw := rstripWs_eq_nil_all_ws s hs
    have h2 : rstripWs (a ++ s) = [] := by
      apply rstripWs_all_ws
      intro c hc
      rcases List.mem_append.mp hc with h3 | h3
      · exact ha c h3
      · exact hsw c h3
    rw [h2]
  · have hne : rstripWs s ≠ [] := by rw [hs]; simp
    rw [rstripWs_append_of_ne_nil a s hne, hs]
    exact lstripWs_append_ws a (r :: rs) ha

theorem splitNl_cons_nl (s : List Char) : splitNl ('\n' :: s) = [] :: splitNl s := by
  simp [splitNl]

theorem splitNl_cons_ne (c : Char) (s : List Char) (h : c ≠ '\n') :
    splitNl (c :: s) = (c :: (splitNl s).headD []) :: (splitNl s).tail := by
  simp [splitNl, h]

theorem rstripWs_cons_of_ne_nil (c : Char) (s : List Char) (h : rstripWs s ≠ []) :
    rstripWs (c :: s) = c :: rstripWs s := by
  simp only [rstripWs]
  rcases hs : rstripWs s with _ | ⟨r, rs⟩
  · exact absurd hs h
  · rfl

theorem splitNl_lstrip (s : List Char) :
    ∀ l2 ∈ splitNl (lstripWs s), ∃ l ∈ splitNl s, ∃ a,
      (∀ c ∈ a, isPyWs c = true) ∧ l = a ++ l2 := by
  induction s with
  | nil =>
      intro l2 hl2
      simp only [lstripWs, splitNl, List.mem_singleton] at hl2
      subst hl2
      exact ⟨[], by simp [splitNl], [], by simp⟩
  | cons c s ih =>
      intro l2 hl2
      by_cases hc : isPyWs c = true
      · simp only [lstripWs, if_pos hc] at hl2
        by_cases hnl : c = '\n'
        · subst hnl
          obtain ⟨l, hl, a, hwa, heq⟩ := ih l2 hl2
          exact ⟨l, by rw [splitNl_cons_nl]; exact List.mem_cons_of_mem _ hl, a, hwa, heq⟩
        · obtain ⟨l, hl, a, hwa, heq⟩ := ih l2 hl2
          rcases hs : splitNl s with _ | ⟨h0, t0⟩
          · exact absurd hs (splitNl_ne_nil s)
          rw [hs] at hl
          rcases List.mem_cons.mp hl with h1 | h1
          · subst h1
            refine ⟨c :: l, ?_, c :: a, ?_, by rw [heq]; simp⟩
            · rw [splitNl_cons_ne c s hnl, hs]
              simp
            · intro x hx
              rcases List.mem_cons.mp hx with h2 | h2
              · subst h2; exact hc
              · exact hwa x h2
          · refine ⟨l, ?_, a, hwa, heq⟩
            rw [splitNl_cons_ne c s hnl, hs]
            simp only [List.headD, List.tail]
            exact List.mem_cons_of_mem _ h1
      · simp only [lstripWs, if_neg hc] at hl2
        exact ⟨l2, hl2, [], by simp⟩

theorem splitNl_rstrip (s : List Char) :
    ∃ front la w rest,
      splitNl (rstripWs s) = front ++ [la] ∧
      splitNl s = front ++ ((la ++ w) :: rest) ∧
      (∀ c ∈ w, isPyWs c = true) := by
  induction s with
  | nil => exact ⟨[], [], [], [], by simp [rstripWs, splitNl], by simp [splitNl], by simp⟩
  | cons c s ih =>
      obtain ⟨f, la, w, rest, h1, h2, hw⟩ := ih
      rcases hrs : rstripWs s with _ | ⟨r, rs⟩
      · -- the tail strips to nothing: f = [], la = []
        rw [hrs] at h1
        have hf : f = [] ∧ la = [] := by
          cases f with
          | nil => simpa [splitNl] using h1.symm
          | cons d ds => simp [splitNl] at h1
        obtain ⟨hf1, hf2⟩ := hf
        subst hf1; subst hf2
        simp only [List.nil_append] at h2
        by_cases hc : isPyWs c = true
        · have hstrip : rstripWs (c :: s) = [] := by
            simp [rstripWs, hrs, hc]
          by_cases hnl : c = '\n'
          · subst hnl
            refine ⟨[], [], [], splitNl s, ?_, ?_, by simp⟩
            · rw [hstrip]; simp [splitNl]
            · rw [splitNl_cons_nl]; simp
          · refine ⟨[], [], c :: w, rest, ?_, ?_, ?_⟩
            · rw [hstrip]; simp [splitNl]
            · rw [splitNl_cons_ne c s hnl, h2]
              simp
            · intro x hx
              rcases List.mem_cons.mp hx with h3 | h3
              · subst h3; exact hc
              · exact hw x h3
        · have hnl : c ≠ '\n' := by
            intro h3; subst h3; exact hc rfl
          have hstrip : rstripWs (c :: s) = [c] := by
            simp [rstripWs, hrs, hc]
          refine ⟨[], [c], w, rest, ?_, ?_, hw⟩
          · rw [hstrip]; simp [splitNl, hnl]
          · rw [splitNl_cons_ne c s hnl, h2]
            simp
      · have hne : rstripWs s ≠ [] := by rw [hrs]; simp
        have hstrip : rstripWs (c :: s) = c :: rstripWs s :=
          rstripWs_cons_of_ne_nil c s hne
        by_cases hnl : c = '\n'
        · subst hnl
          refine ⟨[] :: f, la, w, rest, ?_, ?_, hw⟩
          · rw [hstrip, splitNl_cons_nl, h1]
            simp
          · rw [splitNl_cons_nl, h2]
            simp
        · cases f with
          | nil =>
              simp only [List.nil_append] at h1 h2
              refine ⟨[], c :: la, w, rest, ?_, ?_, hw⟩
              · rw [hstrip, splitNl_cons_ne c _ hnl, h1]
                simp
              · rw [splitNl_cons_ne c s hnl, h2]
                simp
          | cons h0 f0 =>
              refine ⟨(c :: h0) :: f0, la, w, rest, ?_, ?_, hw⟩
              · rw [hstrip, splitNl_cons_ne c _ hnl, h1]
                simp
              · rw [splitNl_cons_ne c s hnl, h2]
                simp

/-- Every line of a stripped document is a line of the original document
with some leading and trailing whitespace removed. -/
theorem splitNl_pyStrip_trim (s : List Char) :
    ∀ l2 ∈ splitNl (pyStrip s), ∃ l ∈ splitNl s, ∃ a b,
      (∀ c ∈ a, isPyWs c = true) ∧ (∀ c ∈ b, isPyWs c = true) ∧
      l = a ++ l2 ++ b := by
  intro l2 hl2
  unfold pyStrip at hl2
  obtain ⟨l1, hl1, a, hwa, heq1⟩ := splitNl_lstrip (rstripWs s) l2 hl2
  obtain ⟨f, la, w, rest, h1, h2, hw⟩ := splitNl_rstrip s
  rw [h1] at hl1
  rcases List.mem_append.mp hl1 with hmem | hmem
  · refine ⟨l1, ?_, a, [], hwa, by simp, by rw [heq1]; simp⟩
    rw [h2]
    exact List.mem_append.mpr (Or.inl hmem)
  · have hla : l1 = la := by simpa using hmem
    subst hla
    refine ⟨l1 ++ w, ?_, a, w, hwa, hw, by rw [heq1]⟩
    rw [h2]
    exact List.mem_append.mpr (Or.inr (List.mem_cons_self _ _))

/-! ## Lemmas about the settings filter -/

theorem splitNl_no_nl (s : List Char) : ∀ l ∈ splitNl s, '\n' ∉ l := by
  induction s with
  | nil =>
      intro l hl
      simp only [splitNl, List.mem_singleton] at hl
      subst hl
      simp
  | cons c s ih =>
      intro l hl
      by_cases hnl : c = '\n'
      · subst hnl
        rw [splitNl_cons_nl] at hl
        rcases List.mem_cons.mp hl with h1 | h1
        · subst h1; simp
        · exact ih l h1
      · rw [splitNl_cons_ne c s hnl] at hl
        rcases hs : splitNl s with _ | ⟨h0, t0⟩
        · exact absurd hs (splitNl_ne_nil s)
        rw [hs] at hl
        simp only [List.headD, List.tail] at hl
        rcases List.mem_cons.mp hl with h1 | h1
        · subst h1
          intro hmem
          rcases List.mem_cons.mp hmem with h2 | h2
          · exact hnl h2.symm
          · exact ih h0 (by rw [hs]; exact List.mem_cons_self _ _) h2
        · exact ih l (by rw [hs]; exact List.mem_cons_of_mem _ h1)

theorem splitNl_singleton (l : List Char) (h : '\n' ∉ l) : splitNl l = [l] := by
  induction l with
  | nil => rfl
  | cons c s ih =>
      have hc : c ≠ '\n' := fun h2 => h (h2 ▸ List.mem_cons_self c s)
      have hs : '\n' ∉ s := fun h2 => h (List.mem_cons_of_mem c h2)
      rw [splitNl_cons_ne c s hc, ih hs]
      rfl

theorem split_join (ls : List (List Char)) (hnl : ∀ l ∈ ls, '\n' ∉ l)
    (hne : ls ≠ []) : splitNl (joinNl ls) = ls := by
  induction ls with
  | nil => exact absurd rfl hne
  | cons l ls ih =>
      cases ls with
      | nil => exact splitNl_singleton l (hnl l (List.mem_cons_self _ _))
      | cons l2 ls2 =>
          show splitNl (l ++ '\n' :: joinNl (l2 :: ls2)) = _
          rw [splitNl_append, ih (fun x hx => hnl x (List.mem_cons_of_mem l hx)) (by simp),
            splitNl_singleton l (hnl l (List.mem_cons_self _ _))]
          rfl

theorem configFilterAux_mem (skip : Bool) (ls : List (List Char)) :
    ∀ l ∈ configFilterAux skip ls, l ∈ ls := by
  induction ls generalizing skip with
  | nil => intro l hl; simp [configFilterAux] at hl
  | cons x rest ih =>
      intro l hl
      simp only [configFilterAux] at hl
      by_cases hskip : skip
      · rw [if_pos hskip] at hl
        exact List.mem_cons_of_mem x (ih false l hl)
      · rw [if_neg hskip] at hl
        by_cases ha : aMatch x = true
        · rw [if_pos ha] at hl
          exact List.mem_cons_of_mem x (ih true l hl)
        · rw [if_neg ha] at hl
          by_cases hb : bMatch x = true
          · rw [if_pos hb] at hl
            exact List.mem_cons_of_mem x (ih false l hl)
          · rw [if_neg hb] at hl
            rcases List.mem_cons.mp hl with h1 | h1
            · subst h1; exact List.mem_cons_self _ _
            · exact List.mem_cons_of_mem x (ih false l h1)

theorem configFilterAux_clean (skip : Bool) (ls : List (List Char)) :
    ∀ l ∈ configFilterAux skip ls, aMatch l = false ∧ bMatch l = false := by
  induction ls generalizing skip with
  | nil => intro l hl; simp [configFilterAux] at hl
  | cons x rest ih =>
      intro l hl
      simp only [configFilterAux] at hl
      by_cases hskip : skip
      · rw [if_pos hskip] at hl
        exact ih false l hl
      · rw [if_neg hskip] at hl
        by_cases ha : aMatch x = true
        · rw [if_pos ha] at hl
          exact ih true l hl
        · rw [if_neg ha] at hl
          by_cases hb : bMatch x = true
          · rw [if_pos hb] at hl
            exact ih false l hl
          · rw [if_neg hb] at hl
            rcases List.mem_cons.mp hl with h1 | h1
            · subst h1
              exact ⟨Bool.eq_false_iff.mpr ha, Bool.eq_false_iff.mpr hb⟩
            · exact ih false l h1

theorem clean_of_trim (a l b : List Char)
    (ha : ∀ c ∈ a, isPyWs c = true) (hb : ∀ c ∈ b, isPyWs c = true)
    (hclean : aMatch (a ++ l ++ b) = false ∧ bMatch (a ++ l ++ b) = false) :
    aMatch l = false ∧ bMatch l = false := by
  constructor
  · by_contra h
    have h1 : aMatch l = true := by
      cases h2 : aMatch l
      · exact absurd h2 h
      · rfl
    rcases List.any_eq_true.mp h1 with ⟨p, hp, hc⟩
    have h3 : aMatch (a ++ l ++ b) = true :=
      List.any_eq_true.mpr ⟨p, hp, containsSub_sandwich p a l b hc⟩
    rw [hclean.1] at h3
    exact Bool.false_ne_true h3
  · by_contra h
    have h1 : bMatch l = true := by
      cases h2 : bMatch l
      · exact absurd h2 h
      · rfl
    unfold bMatch at h1
    rw [Bool.and_eq_true] at h1
    rcases List.any_eq_true.mp h1.2 with ⟨p, hp, hc⟩
    have h3 : bMatch (a ++ l ++ b) = true := by
      unfold bMatch
      rw [Bool.and_eq_true, pyStrip_sandwich a l b ha hb]
      exact ⟨h1.1, List.any_eq_true.mpr ⟨p, hp, containsSub_sandwich p a l b hc⟩⟩
    rw [hclean.2] at h3
    exact Bool.false_ne_true h3

theorem configFilterAux_clean_prefix (xs ys : List (List Char))
    (h : ∀ l ∈ xs, aMatch l = false ∧ bMatch l = false) :
    configFilterAux false (xs ++ ys) = xs ++ configFilterAux false ys := by
  induction xs with
  | nil => simp
  | cons x rest ih =>
      have hx := h x (List.mem_cons_self _ _)
      show configFilterAux false (x :: (rest ++ ys)) = _
      simp only [configFilterAux, if_neg (by simp : ¬(false = true)), hx.1, hx.2,
        Bool.false_eq_true, if_false]
      rw [ih (fun l hl => h l (List.mem_cons_of_mem x hl))]
      rfl

/-- The lines of the filtered, joined and stripped body never match the
filter conditions again. -/
theorem body_lines_clean (ls : List (List Char)) (hnl : ∀ l ∈ ls, '\n' ∉ l) :
    ∀ l2 ∈ splitNl (pyStrip (joinNl (configFilterAux false ls))),
      aMatch l2 = false ∧ bMatch l2 = false := by
  intro l2 hl2
  rcases hks : configFilterAux false ls with _ | ⟨k, ks⟩
  · rw [hks] at hl2
    simp only [joinNl] at hl2
    have : pyStrip [] = [] := rfl
    rw [this] at hl2
    simp only [splitNl, List.mem_singleton] at hl2
    subst hl2
    exact ⟨by decide, by decide⟩
  · rw [hks] at hl2
    have hsub : ∀ l ∈ k :: ks, l ∈ ls := by
      intro l hl
      rw [← hks] at hl
      exact configFilterAux_mem false ls l hl
    have hjoin : splitNl (joinNl (k :: ks)) = k :: ks :=
      split_join (k :: ks) (fun l hl => hnl l (hsub l hl)) (by simp)
    obtain ⟨l, hlmem, a, b, hwa, hwb, heq⟩ := splitNl_pyStrip_trim (joinNl (k :: ks)) l2 hl2
    rw [hjoin] at hlmem
    have hclean : aMatch l = false ∧ bMatch l = false := by
      rw [← hks] at hlmem
      exact configFilterAux_clean false ls l hlmem
    rw [heq] at hclean
    exact clean_of_trim a l2 b hwa hwb hclean

theorem new_config_cons : new_config = '\n' :: block_chars := by decide

theorem filter_block_lines : configFilterAux false block_lines = leftover_lines := by decide

theorem config_update_unfold (x : List Char) :
    opensearch_config_update x =
      pyStrip (joinNl (configFilterAux false (splitNl x))) ++ new_config := rfl

/-- Claim C1, amended (corrected): applying the settings patch twice is not
byte-identical to applying it once; the second pass removes the key lines
and key-naming comments of the first inserted block but keeps its seven
other explanatory comment lines, so the result is
`strip(firstBody + newline + leftoverComments) + block` instead of
`firstBody + block`. -/
theorem settings_patch_double_apply_keeps_leftovers (c : List Char) :
    opensearch_config_update (opensearch_config_update c) =
      pyStrip (pyStrip (joinNl (configFilterAux false (splitNl c))) ++
        '\n' :: leftover_chars) ++ new_config := by
  have h1 : opensearch_config_update c =
      pyStrip (joinNl (configFilterAux false (splitNl c))) ++ '\n' :: block_chars := by
    rw [config_update_unfold, new_config_cons]
  have h2 : splitNl (opensearch_config_update c) =
      splitNl (pyStrip (joinNl (configFilterAux false (splitNl c)))) ++ block_lines := by
    rw [h1, splitNl_append]
    rfl
  have hclean : ∀ l ∈ splitNl (pyStrip (joinNl (configFilterAux false (splitNl c)))),
      aMatch l = false ∧ bMatch l = false :=
    body_lines_clean (splitNl c) (splitNl_no_nl c)
  have h3 : configFilterAux false (splitNl (opensearch_config_update c)) =
      splitNl (pyStrip (joinNl (configFilterAux false (splitNl c)))) ++ leftover_lines := by
    rw [h2, configFilterAux_clean_prefix _ _ hclean, filter_block_lines]
  rw [config_update_unfold (opensearch_config_update c), h3,
    joinNl_append _ _ (by simp [leftover_lines]), join_split,
    if_neg (splitNl_ne_nil _)]
  rw [List.append_assoc]
  rfl

theorem key_colon_split_1 :
    str "network.host:" = str "network.host" ++ str ":" := by decide

theorem key_colon_split_2 :
    str "discovery.type:" = str "discovery.type" ++ str ":" := by decide

theorem key_colon_split_3 :
    str "plugins.security.disabled:" = str "plugins.security.disabled" ++ str ":" := by decide

/-- A line containing none of the three bare key names matches neither
filter condition. -/
theorem clean_of_no_bare_key (l : List Char)
    (h : ∀ p ∈ bare_key_patterns, containsSub p l = false) :
    aMatch l = false ∧ bMatch l = false := by
  have h1 := h (str "network.host") (by simp [bare_key_patterns])
  have h2 := h (str "discovery.type") (by simp [bare_key_patterns])
  have h3 := h (str "plugins.security.disabled") (by simp [bare_key_patterns])
  have hc1 : containsSub (str "network.host:") l = false := by
    cases hc : containsSub (str "network.host:") l
    · rfl
    · exfalso
      have h4 := containsSub_of_pattern_append (str "network.host") (str ":") l
        (by rw [← key_colon_split_1]; exact hc)
      rw [h1] at h4
      exact Bool.false_ne_true h4
  have hc2 : containsSub (str "discovery.type:") l = false := by
    cases hc : containsSub (str "discovery.type:") l
    · rfl
    · exfalso
      have h4 := containsSub_of_pattern_append (str "discovery.type") (str ":") l
        (by rw [← key_colon_split_2]; exact hc)
      rw [h2] at h4
      exact Bool.false_ne_true h4
  have hc3 : containsSub (str "plugins.security.disabled:") l = false := by
    cases hc : containsSub (str "plugins.security.disabled:") l
    · rfl
    · exfalso
      have h4 := containsSub_of_pattern_append (str "plugins.security.disabled") (str ":") l
        (by rw [← key_colon_split_3]; exact hc)
      rw [h3] at h4
      exact Bool.false_ne_true h4
  constructor
  · simp [aMatch, key_colon_patterns, hc1, hc2, hc3]
  · simp [bMatch, bare_key_patterns, h1, h2, h3]

theorem configFilterAux_clean_id (xs : List (List Char))
    (h : ∀ l ∈ xs, aMatch l = false ∧ bMatch l = false) :
    configFilterAux false xs = xs := by
  have h2 := configFilterAux_clean_prefix xs [] h
  simpa [configFilterAux] using h2

/-- Claim C1 counterexample: on the empty configuration file, applying the
settings patch twice yields different bytes than applying it once (seven
comment lines of the first block survive the second filter pass). -/
theorem settings_patch_twice_ne_once :
    opensearch_config_update (opensearch_config_update []) ≠
      opensearch_config_update [] := by decide

/-- Claim C2 counterexample: the input file consisting of the single
unrelated line `" x"` (which contains no spec key) does not reappear as a
line of the patched output — the `strip()` of the joined body removes its
leading space. -/
theorem settings_patch_drops_padded_line :
    ¬ (str " x") ∈ splitNl (opensearch_config_update (str " x")) := by decide

/-! ## Equivalence of the code filter with the amended declarative filter (C4) -/

theorem configFilter_eq_specAmended (ls : List (List Char)) :
    configFilterAux false ls = specFilterAmended ls := by
  have key : ∀ ms : List (List Char),
      (configFilterAux false ms = specFilterAmended ms) ∧
      ∀ x, configFilterAux false (x :: ms) = specFilterAmended (x :: ms) := by
    intro ms
    induction ms with
    | nil =>
        refine ⟨rfl, ?_⟩
        intro x
        by_cases ha : aMatch x = true <;> by_cases hb : bMatch x = true <;>
          simp [configFilterAux, specFilterAmended, ha, hb]
    | cons y ms ih =>
        refine ⟨ih.2 y, ?_⟩
        intro x
        by_cases ha : aMatch x = true
        · have e1 : configFilterAux false (x :: y :: ms) = configFilterAux false ms := by
            simp [configFilterAux, ha]
          have e3 : specFilterAmended (x :: y :: ms) = specFilterAmended ms := by
            simp [specFilterAmended, ha]
          rw [e1, e3, ih.1]
        · by_cases hb : bMatch x = true
          · have e1 : configFilterAux false (x :: y :: ms) =
                configFilterAux false (y :: ms) := by
              simp [configFilterAux, ha, hb]
            have e3 : specFilterAmended (x :: y :: ms) =
                specFilterAmended (y :: ms) := by
              simp [specFilterAmended, ha, hb]
            rw [e1, e3, ih.2 y]
          · have e1 : configFilterAux false (x :: y :: ms) =
                x :: configFilterAux false (y :: ms) := by
              simp [configFilterAux, ha, hb]
            have e3 : specFilterAmended (x :: y :: ms) =
                x :: specFilterAmended (y :: ms) := by
              simp [specFilterAmended, ha, hb]
            rw [e1, e3, ih.2 y]
  exact (key ls).1

/-! ## Patch-then-verify round trip (C7) -/

theorem split_update_body_block (c : List Char) :
    splitNl (opensearch_config_update c) =
      splitNl (pyStrip (joinNl (configFilterAux false (splitNl c)))) ++ block_lines := by
  rw [config_update_unfold, new_config_cons, splitNl_append]
  rfl

theorem block_fold_eval (M : List Char → Option (List Char)) :
    (List.foldl found_map_step M block_lines) (str "network.host") = some (str "0.0.0.0") ∧
    (List.foldl found_map_step M block_lines) (str "discovery.type") = some (str "single-node") ∧
    (List.foldl found_map_step M block_lines) (str "plugins.security.disabled") = some (str "false") :=
  ⟨rfl, rfl, rfl⟩

theorem found_after_update (c : List Char) :
    found_settings (opensearch_config_update c) (str "network.host") = some (str "0.0.0.0") ∧
    found_settings (opensearch_config_update c) (str "discovery.type") = some (str "single-node") ∧
    found_settings (opensearch_config_update c) (str "plugins.security.disabled") = some (str "false") := by
  have hf : ∀ k, found_settings (opensearch_config_update c) k =
      List.foldl found_map_step
        (List.foldl found_map_step (fun _ => none)
          (splitNl (pyStrip (joinNl (configFilterAux false (splitNl c)))))) block_lines k := by
    intro k
    rw [found_settings, split_update_body_block, List.foldl_append]
  refine ⟨?_, ?_, ?_⟩
  · rw [hf]
    exact (block_fold_eval _).1
  · rw [hf]
    exact (block_fold_eval _).2.1
  · rw [hf]
    exact (block_fold_eval _).2.2

/-! ## Lemmas about the JVM heap patcher -/

theorem jvm_filter_loop_eq_filter (ls : List (List Char)) :
    jvm_filter_loop ls = ls.filter jvm_keep_line := by
  induction ls with
  | nil => rfl
  | cons l rest ih =>
      by_cases h : jvm_keep_line l = true
      · have h2 : (!startsWithL (str "-Xms") (pyStrip l) &&
            !startsWithL (str "-Xmx") (pyStrip l)) = true := h
        simp [jvm_filter_loop, List.filter_cons, h, h2, ih]
      · have h3 : jvm_keep_line l = false := by
          cases h4 : jvm_keep_line l
          · rfl
          · exact absurd h4 h
        have h2 : (!startsWithL (str "-Xms") (pyStrip l) &&
            !startsWithL (str "-Xmx") (pyStrip l)) = false := h3
        simp [jvm_filter_loop, List.filter_cons, h3, h2, ih]

theorem jvm_filter_loop_append (xs ys : List (List Char)) :
    jvm_filter_loop (xs ++ ys) = jvm_filter_loop xs ++ jvm_filter_loop ys := by
  simp [jvm_filter_loop_eq_filter, List.filter_append]

theorem jvm_filter_loop_idem (ls : List (List Char)) :
    jvm_filter_loop (jvm_filter_loop ls) = jvm_filter_loop ls := by
  simp [jvm_filter_loop_eq_filter, List.filter_filter]

theorem readLines_cons_nl (s : List Char) :
    readLines ('\n' :: s) = ['\n'] :: readLines s := by
  simp [readLines]

theorem readLines_cons_ne (c : Char) (s : List Char) (h : c ≠ '\n') :
    readLines (c :: s) =
      (match readLines s with
       | [] => [[c]]
       | l :: ls => (c :: l) :: ls) := by
  simp [readLines, h]

theorem readLines_ne_nil (s : List Char) (h : s ≠ []) : readLines s ≠ [] := by
  cases s with
  | nil => exact absurd rfl h
  | cons c rest =>
      by_cases hc : c = '\n'
      · subst hc
        rw [readLines_cons_nl]
        simp
      · rw [readLines_cons_ne c rest hc]
        rcases readLines rest with _ | ⟨l, ls⟩ <;> simp

theorem readLines_line_append (m s : List Char) (hm : '\n' ∉ m) :
    readLines ((m ++ ['\n']) ++ s) = (m ++ ['\n']) :: readLines s := by
  induction m with
  | nil =>
      simp only [List.nil_append]
      exact readLines_cons_nl s
  | cons c m ih =>
      have hc : c ≠ '\n' := fun h => hm (h ▸ List.mem_cons_self c m)
      have hm2 : '\n' ∉ m := fun h => hm (List.mem_cons_of_mem c h)
      show readLines (c :: ((m ++ ['\n']) ++ s)) = _
      rw [readLines_cons_ne c _ hc, ih hm2]
      rfl

theorem readLines_line_singleton (m : List Char) (hm : '\n' ∉ m) :
    readLines (m ++ ['\n']) = [m ++ ['\n']] := by
  induction m with
  | nil => simp [readLines]
  | cons c m ih =>
      have hc : c ≠ '\n' := fun h => hm (h ▸ List.mem_cons_self c m)
      have hm2 : '\n' ∉ m := fun h => hm (List.mem_cons_of_mem c h)
      show readLines (c :: (m ++ ['\n'])) = _
      rw [readLines_cons_ne c _ hc, ih hm2]
      rfl

theorem readLines_concat (ls : List (List Char))
    (h : ∀ l ∈ ls, ∃ m, l = m ++ ['\n'] ∧ '\n' ∉ m) :
    readLines (concatAll ls) = ls := by
  induction ls with
  | nil => rfl
  | cons l rest ih =>
      obtain ⟨m, hm, hmnl⟩ := h l (List.mem_cons_self _ _)
      have ih2 := ih (fun x hx => h x (List.mem_cons_of_mem l hx))
      show readLines (l ++ concatAll rest) = l :: rest
      cases hrest : rest with
      | nil =>
          subst hm
          simp only [concatAll, List.append_nil]
          exact readLines_line_singleton m hmnl
      | cons r rs =>
          subst hm
          rw [hrest] at ih2
          rw [readLines_line_append m (concatAll (r :: rs)) hmnl, ih2]

theorem readLines_terminated :
    ∀ s : List Char, s.getLast? = some '\n' →
      ∀ l ∈ readLines s, ∃ m, l = m ++ ['\n'] ∧ '\n' ∉ m := by
  intro s
  induction s with
  | nil => intro h; simp at h
  | cons c rest ih =>
      intro h l hl
      cases hr : rest with
      | nil =>
          subst hr
          simp only [List.getLast?_singleton, Option.some_inj] at h
          subst h
          rw [readLines_cons_nl] at hl
          rw [show readLines ([] : List Char) = [] from rfl] at hl
          simp only [List.mem_singleton] at hl
          subst hl
          exact ⟨[], rfl, by simp⟩
      | cons r rs =>
          subst hr
          have h2 : (r :: rs).getLast? = some '\n' := by
            rw [List.getLast?_cons_cons] at h
            exact h
          by_cases hc : c = '\n'
          · subst hc
            rw [readLines_cons_nl] at hl
            rcases List.mem_cons.mp hl with h1 | h1
            · subst h1
              exact ⟨[], rfl, by simp⟩
            · exact ih h2 l h1
          · rw [readLines_cons_ne c _ hc] at hl
            rcases hrl : readLines (r :: rs) with _ | ⟨l0, ls0⟩
            · exact absurd hrl (readLines_ne_nil _ (by simp))
            rw [hrl] at hl
            rcases List.mem_cons.mp hl with h1 | h1
            · subst h1
              obtain ⟨m, hm, hmnl⟩ := ih h2 l0 (by rw [hrl]; exact List.mem_cons_self _ _)
              refine ⟨c :: m, by rw [hm]; rfl, ?_⟩
              intro hmem
              rcases List.mem_cons.mp hmem with h3 | h3
              · exact hc h3.symm
              · exact hmnl h3
            · exact ih h2 l (by rw [hrl]; exact List.mem_cons_of_mem _ h1)

theorem set_jvm_heap_unfold (c : List Char) :
    set_jvm_heap c = concatAll (set_jvm_new_lines c) := rfl

theorem set_jvm_new_lines_unfold (c : List Char) :
    set_jvm_new_lines c =
      jvm_filter_loop (readLines c) ++ [str "-Xms8g\n", str "-Xmx8g\n"] := rfl

theorem readLines_set_jvm_heap (c : List Char) (h : c.getLast? = some '\n') :
    readLines (set_jvm_heap c) =
      jvm_filter_loop (readLines c) ++ [str "-Xms8g\n", str "-Xmx8g\n"] := by
  have hlines := readLines_terminated c h
  have hall : ∀ l ∈ jvm_filter_loop (readLines c) ++ [str "-Xms8g\n", str "-Xmx8g\n"],
      ∃ m, l = m ++ ['\n'] ∧ '\n' ∉ m := by
    intro l hl
    rcases List.mem_append.mp hl with h1 | h1
    · apply hlines
      rw [jvm_filter_loop_eq_filter] at h1
      exact List.mem_of_mem_filter h1
    · rcases List.mem_cons.mp h1 with h2 | h2
      · subst h2
        exact ⟨str "-Xms8g", by decide, by decide⟩
      · simp only [List.mem_singleton] at h2
        subst h2
        exact ⟨str "-Xmx8g", by decide, by decide⟩
  rw [set_jvm_heap_unfold, set_jvm_new_lines_unfold]
  exact readLines_concat _ hall

/-! ## Lemmas about the pollers -/

theorem verify_installation_aux_never (env : Nat → Bool × Bool × Bool)
    (h : ∀ n, ((env n).1 && (env n).2.1 && (env n).2.2) = false) :
    ∀ fuel k, verify_installation_aux env fuel k = PollOutcome.timedOutRaise (fuel + k) := by
  intro fuel
  induction fuel with
  | zero =>
      intro k
      simp [verify_installation_aux]
  | succ n ih =>
      intro k
      show (if ((env (k + 1)).1 && (env (k + 1)).2.1 && (env (k + 1)).2.2) = true
            then PollOutcome.satisfied (k + 1)
            else verify_installation_aux env n (k + 1)) = _
      rw [h (k + 1)]
      simp only [Bool.false_eq_true, if_false, ih (k + 1)]
      congr 1
      omega

theorem install_monitor_aux_never (isRunning : Nat → Bool)
    (h : ∀ n, isRunning n = true) :
    ∀ fuel k, install_monitor_aux isRunning fuel k =
      PollOutcome.timedOutContinue (fuel + k) := by
  intro fuel
  induction fuel with
  | zero =>
      intro k
      simp [install_monitor_aux]
  | succ n ih =>
      intro k
      show (if isRunning (k + 1) = false then PollOutcome.satisfied (k + 1)
            else install_monitor_aux isRunning n (k + 1)) = _
      rw [h (k + 1)]
      simp only [Bool.true_eq_false, if_false, ih (k + 1)]
      congr 1
      omega

/-! ## Claim theorems -/

/-- Claim C2, amended (corrected): for an input whose lines contain no spec
key and which carries no leading or trailing whitespace (so that the
`strip()` of the joined body is the identity), the patched output consists
of exactly the input lines, in order, followed by the lines of the appended
settings block. -/
theorem settings_patch_preserves_unrelated_lines (c : List Char)
    (hkey : ∀ l ∈ splitNl c, ∀ p ∈ bare_key_patterns, containsSub p l = false)
    (hstrip : pyStrip c = c) :
    splitNl (opensearch_config_update c) = splitNl c ++ block_lines := by
  have hclean : ∀ l ∈ splitNl c, aMatch l = false ∧ bMatch l = false :=
    fun l hl => clean_of_no_bare_key l (hkey l hl)
  rw [config_update_unfold, configFilterAux_clean_id _ hclean, join_split, hstrip,
    new_config_cons, splitNl_append]
  rfl

/-- Witness for C2 at the concrete unrelated file `"foo: bar"`. -/
theorem settings_patch_preserves_unrelated_lines_witness :
    (∀ l ∈ splitNl (str "foo: bar"), ∀ p ∈ bare_key_patterns, containsSub p l = false) ∧
    pyStrip (str "foo: bar") = str "foo: bar" ∧
    splitNl (opensearch_config_update (str "foo: bar")) =
      splitNl (str "foo: bar") ++ block_lines :=
  ⟨by decide, by decide,
    settings_patch_preserves_unrelated_lines (str "foo: bar") (by decide) (by decide)⟩

/-- Claim C3 counterexample: in an environment where every call succeeds
except disabling the dashboard service, `run_removal` still executes all
eight steps and completes — the disable failure is not fatal, refuting the
claim that any step failure aborts the remaining steps. -/
theorem removal_continues_after_disable_failure :
    run_removal ⟨true, true, true, false, true, true, true,
                 true, true, true, true, true, true⟩ =
      ([RStep.stopDash, RStep.disableDash, RStep.removeDash, RStep.rmdirDash,
        RStep.stopOS, RStep.disableOS, RStep.removeOS, RStep.rmdirOS], true) := by
  decide

/-- Claim C3, amended (corrected): the removal sequencer is fail-fast for
the stop, uninstall-package and delete-config-directory steps (a fatal
failure ends the run at that step), while a disable failure is only logged
and never stops the run; `run_removal` is exactly the declarative
first-fatal-failure truncation of the fixed step order. -/
theorem removal_fatal_step_characterization :
    ∀ (r a1 b1 c1 d1 e1 f1 a2 b2 c2 d2 e2 f2 : Bool),
      run_removal ⟨r, a1, b1, c1, d1, e1, f1, a2, b2, c2, d2, e2, f2⟩ =
        spec_removal ⟨r, a1, b1, c1, d1, e1, f1, a2, b2, c2, d2, e2, f2⟩ := by
  decide

/-- Claim C4 counterexample: on the single line `"zz network.host: 1"` the
code filter drops the line (substring containment of `network.host:`)
while the claimed filter (trimmed content begins with `key:`) keeps it. -/
theorem settings_filter_claim_mismatch :
    configFilterAux false [str "zz network.host: 1"] = [] ∧
    specFilterClaim [str "zz network.host: 1"] = [str "zz network.host: 1"] := by
  constructor
  · decide
  · decide

/-- Claim C4, amended (corrected): the filter drops (a) every line that
contains `<key>:` anywhere in the raw line — not only when the trimmed
content begins with it — together with the single following line, this
check taking precedence over (b) dropping any remaining comment line that
contains a bare key name; all other lines are kept in order. -/
theorem settings_filter_substring_semantics (ls : List (List Char)) :
    configFilterAux false ls = specFilterAmended ls :=
  configFilter_eq_specAmended ls

/-- Claim C5 counterexample: when the monitored install process never
finishes, the `opensearch_install` monitor loop performs its 60 polls and
then falls through without raising any timeout error. -/
theorem install_monitor_no_raise_on_timeout :
    install_monitor (fun _ => true) = PollOutcome.timedOutContinue 60 := by
  decide

/-- Claim C5, amended (corrected): when the readiness checks never pass,
`verify_installation` raises its timeout exception after exactly
`max_attempts = 90` checks, but the package-install monitor loop performs
its `300 / 5 = 60` polls and then continues without raising. -/
theorem poller_timeout_behavior (env : Nat → Bool × Bool × Bool)
    (isRunning : Nat → Bool)
    (h1 : ∀ n, ((env n).1 && (env n).2.1 && (env n).2.2) = false)
    (h2 : ∀ n, isRunning n = true) :
    verify_installation env = PollOutcome.timedOutRaise max_attempts ∧
    max_attempts = 90 ∧
    install_monitor isRunning = PollOutcome.timedOutContinue 60 := by
  have hv : verify_installation env = PollOutcome.timedOutRaise max_attempts := by
    have h := verify_installation_aux_never env h1 max_attempts 0
    rw [Nat.add_zero] at h
    exact h
  have hm : install_monitor isRunning = PollOutcome.timedOutContinue 60 := by
    have h := install_monitor_aux_never isRunning h2 60 0
    rw [Nat.add_zero] at h
    exact h
  exact ⟨hv, rfl, hm⟩

/-- Witness for C5 with the constantly failing environment. -/
theorem poller_timeout_behavior_witness :
    (((false : Bool) && false && false) = false) ∧
    verify_installation (fun _ => (false, false, false)) =
      PollOutcome.timedOutRaise max_attempts ∧
    install_monitor (fun _ => true) = PollOutcome.timedOutContinue 60 :=
  ⟨rfl,
   (poller_timeout_behavior (fun _ => (false, false, false)) (fun _ => true)
     (fun _ => rfl) (fun _ => rfl)).1,
   (poller_timeout_behavior (fun _ => (false, false, false)) (fun _ => true)
     (fun _ => rfl) (fun _ => rfl)).2.2⟩

/-- Claim C6 counterexample: on a missing file, `verify_config` returns the
result `False` — the `except` clause catches the I/O error — instead of
raising it as the claim states. -/
theorem verify_config_io_missing_file_returns :
    verify_config_io none = Except.ok false := rfl

/-- Claim C6, amended (corrected): `verify_config` never raises at all: for
every readable content it returns a boolean result, and for a missing or
unreadable file the caught I/O error also yields the returned result
`False` rather than an exception. -/
theorem verify_config_io_never_raises (file : Option (List Char)) :
    ∃ b, verify_config_io file = Except.ok b := by
  cases file with
  | none => exact ⟨false, rfl⟩
  | some c => exact ⟨verify_config c, rfl⟩

/-- Claim C7 (confirmed): immediately after `opensearch_config_update`,
`verify_config` reports success on the same content: no required key is
missing, none is mismatched, and the overall check returns true. -/
theorem verify_after_update_all_match (c : List Char) :
    verify_config (opensearch_config_update c) = true ∧
    verify_missing (opensearch_config_update c) = [] ∧
    verify_mismatched (opensearch_config_update c) = [] := by
  obtain ⟨h1, h2, h3⟩ := found_after_update c
  refine ⟨?_, ?_, ?_⟩
  · simp [verify_config, required_settings, h1, h2, h3]
  · simp [verify_missing, required_settings, h1, h2, h3]
  · simp [verify_mismatched, required_settings, h1, h2, h3]

/-- Claim C8 (confirmed): `set_jvm_heap` keeps exactly the lines whose
trimmed form starts with neither `-Xms` nor `-Xmx`, in order, and appends
the two heap flag lines; on the spec's example input it produces exactly
the example output. -/
theorem set_jvm_heap_postcondition :
    (∀ c, set_jvm_new_lines c =
        (readLines c).filter jvm_keep_line ++ [str "-Xms8g\n", str "-Xmx8g\n"]) ∧
    set_jvm_heap (str "-Xms2g\n-Xmx2g\n-other\n") = str "-other\n-Xms8g\n-Xmx8g\n" := by
  constructor
  · intro c
    rw [set_jvm_new_lines_unfold, jvm_filter_loop_eq_filter]
  · decide

/-- Claim C9 counterexample: on the flags file `"-other"` without a
trailing newline, the first appended flag line concatenates onto the last
line, so applying `set_jvm_heap` twice differs from applying it once. -/
theorem set_jvm_heap_not_idempotent :
    set_jvm_heap (set_jvm_heap (str "-other")) ≠ set_jvm_heap (str "-other") := by
  decide

/-- Claim C9, amended (corrected): `set_jvm_heap` is idempotent on every
flags file that is empty or ends with a newline; only an unterminated
final line breaks byte idempotence. -/
theorem set_jvm_heap_idempotent_on_terminated (c : List Char)
    (h : c = [] ∨ c.getLast? = some '\n') :
    set_jvm_heap (set_jvm_heap c) = set_jvm_heap c := by
  rcases h with h | h
  · subst h
    decide
  · rw [set_jvm_heap_unfold (set_jvm_heap c), set_jvm_new_lines_unfold,
      readLines_set_jvm_heap c h, jvm_filter_loop_append, jvm_filter_loop_idem]
    have hdrop : jvm_filter_loop [str "-Xms8g\n", str "-Xmx8g\n"] = [] := by decide
    rw [hdrop, List.append_nil]
    rfl

/-- Witness for C9 at the newline-terminated file `"-Xms2g\n"`. -/
theorem set_jvm_heap_idempotent_on_terminated_witness :
    (str "-Xms2g\n").getLast? = some '\n' ∧
    set_jvm_heap (set_jvm_heap (str "-Xms2g\n")) = set_jvm_heap (str "-Xms2g\n") :=
  ⟨by decide,
   set_jvm_heap_idempotent_on_terminated (str "-Xms2g\n") (Or.inr (by decide))⟩

/-- Claim C10 (confirmed): when the target RPM file already exists with
size greater than zero, `download_opensearch` performs no download and no
write and returns with the file content unchanged. -/
theorem download_skips_existing_nonempty (content fetched : List Char)
    (h : 0 < content.length) :
    download_opensearch (some content) fetched = (some content, false, true) := by
  simp [download_opensearch, h]

/-- Witness for C10 at a one-byte existing file. -/
theorem download_skips_existing_nonempty_witness :
    0 < (str "x").length ∧
    download_opensearch (some (str "x")) [] = (some (str "x"), false, true) :=
  ⟨by decide, download_skips_existing_nonempty (str "x") [] (by decide)⟩

end OpenSearchInstall
